import Mathlib

/-!
Verification of the Cosmic Reach → Rigel animation converter
(`scripts/convert_cr_animations.py`).

The converter is a tree transform over parsed JSON documents.  We embed the
JSON value tree shallowly, translate each helper of the script
(`parse_float`, `normalize_bool`, `convert_track`, `convert_animation`) into a
Lean function over that tree, and prove the documented properties.

Modelling conventions:
* Python floats are modelled by `PyNum`: an exact rational, an infinity of
  either sign, or nan.  The rounding of decimal literals and large integers
  to the nearest IEEE double is idealized away (values stay exact), but the
  two range rules that change the value class are modelled exactly: string
  conversion overflows to infinity, and int conversion raises OverflowError,
  both at the double-range threshold.
* Python `float()` has three outcomes, captured by `FloatAttempt`: a value, a
  TypeError/ValueError (caught by the except clause of `parse_float` in the
  script), or an OverflowError on a huge int, which that except clause does
  not catch and which therefore propagates out of `convert_animation`; the
  converter is accordingly embedded in `Except String`.
* Python dicts (which preserve insertion order and have unique keys) are
  modelled as association lists `List (String × JValue)`; lookup is
  first-match lookup.
* Python `str.strip` and `str.lower` are modelled over `List Char` (ASCII);
  the unicode digits and spaces that Python also accepts are not modelled.
* The stable sort `entries.sort(key=lambda item: item[0])` is modelled by
  left-to-right stable insertion by the Python strict comparison: each
  element is placed before the first strictly greater element of the sorted
  prefix.  On keys that are pairwise comparable (no nan) every stable sort
  agrees, so this is exactly the behavior of list.sort there; on the
  two-element nan cases used below it also coincides with the binary
  insertion of CPython.
* Diagnostics written by `warn` to stderr are modelled as an explicit list of
  `Warning` values returned next to each result.
-/

namespace Rigel

/-- A Python float value: an exact rational, a signed infinity, or nan.
`inf true` is positive infinity, `inf false` negative infinity. -/
inductive PyNum : Type where
  | fin (q : ℚ)
  | inf (pos : Bool)
  | nan
deriving DecidableEq

/-- A parsed JSON-like tree, the input and output type of the converter.
Number leaves carry a `PyNum`, since `json.loads` itself produces
inf and nan floats (from huge literals and Infinity/NaN tokens). -/
inductive JValue : Type where
  | null : JValue
  | bool : Bool → JValue
  | int : Int → JValue
  | num : PyNum → JValue
  | str : String → JValue
  | list : List JValue → JValue
  | obj : List (String × JValue) → JValue

/-- One diagnostic message emitted by `warn`, one constructor per call site of
`warn` inside the conversion core (message text is abstracted to the data it
interpolates). -/
inductive Warning : Type where
  | invalidFloat (value : JValue) (context : String)
  | invalidTrack (context : String)
  | invalidValue (context : String) (timeKey : String)
  | noAnimationsMap (source : String)

/-- Python dict key lookup (`d[k]` / `k in d`) on an insertion-ordered
association list: first match wins. -/
def jget : List (String × JValue) → String → Option JValue
  | [], _ => none
  | (k, v) :: rest, key => if k = key then some v else jget rest key

/-- Python `d.get(key, dflt)`. -/
def jgetD (pairs : List (String × JValue)) (key : String) (dflt : JValue) : JValue :=
  (jget pairs key).getD dflt

/-- Python whitespace characters recognised by `str.strip()` and skipped by
`float(str)` (ASCII range). -/
def pyIsSpace (c : Char) : Bool :=
  c = ' ' || c = '\t' || c = '\n' || c = '\x0d' || c = '\x0b' || c = '\x0c'

/-- Python `str.strip()` over the character list. -/
def pyStrip (s : List Char) : List Char :=
  ((s.dropWhile pyIsSpace).reverse.dropWhile pyIsSpace).reverse

/-- Python `str.lower()` over the character list (ASCII case folding). -/
def pyLower (s : List Char) : List Char :=
  s.map Char.toLower

/-- Value of a digit string, most significant digit first. -/
def digitsVal (cs : List Char) : Nat :=
  cs.foldl (fun a c => a * 10 + (c.toNat - 48)) 0

/-- Maximal munch of one Python digit group `digit (["_"] digit)*`: returns
the digits with the grouping underscores removed, and the unconsumed rest.
An underscore must be surrounded by digits, exactly as Python requires. -/
def takeDigitPart : List Char → List Char × List Char
  | [] => ([], [])
  | [c] => if c.isDigit then ([c], []) else ([], [c])
  | c :: c2 :: rest =>
      if c.isDigit then
        if c2 = '_' then
          match rest with
          | c3 :: rest2 =>
              if c3.isDigit then
                let r := takeDigitPart (c3 :: rest2)
                (c :: r.1, r.2)
              else ([c], c2 :: rest)
          | [] => ([c], [c2])
        else
          let r := takeDigitPart (c2 :: rest)
          (c :: r.1, r.2)
      else ([], c :: c2 :: rest)

/-- Smallest magnitude that rounds to infinity in IEEE double precision, as a
literal: 2^1024 − 2^970.  It is the overflow threshold both of C strtod, used
by Python float() on strings, and of the int → float conversion. -/
def doubleOverflowNat : Nat :=
  179769313486231580793728971405303415079934132710037826936173778980444968292764750946649017977587207096330286416692887910946555547851940402630657488671505820681908902000708383676273854845817711531764475730270069855571366959622842914819860834936475292719074168444365510704342711559699508093042880177904174497792

/-- The overflow threshold as a rational, for comparison against parsed
decimal magnitudes. -/
def doubleOverflowBound : ℚ := mkRat (Int.ofNat doubleOverflowNat) 1

/-- Exact value assembled from sign, integer digits, fraction digits and
decimal exponent, with the overflow-to-infinity rule of C strtod: magnitudes
at or above the double-range threshold give a signed infinity, as
float("1e999") does in Python.  Finite values are kept as exact rationals
(rounding to the nearest double, and underflow to zero, are idealized
away). -/
def floatOfParts (neg : Bool) (ip fp : List Char) (ex : Int) : PyNum :=
  let mant : Int := Int.ofNat (digitsVal (ip ++ fp))
  let e : Int := ex - fp.length
  let mag : ℚ := if 0 ≤ e then mkRat (mant * 10 ^ e.toNat) 1 else mkRat mant (10 ^ (-e).toNat)
  if doubleOverflowBound ≤ mag then PyNum.inf (!neg)
  else
    PyNum.fin (if neg then
      (if 0 ≤ e then mkRat (-mant * 10 ^ e.toNat) 1 else mkRat (-mant) (10 ^ (-e).toNat))
    else mag)

/-- Mantissa-and-exponent tail of the Python float grammar: requires at least
one mantissa digit, then an optional exponent `e [sign] digitpart` with
nothing left over. -/
def parseFloatTail (neg : Bool) (ip fp : List Char) (cs : List Char) : Option PyNum :=
  if ip.isEmpty && fp.isEmpty then none
  else
    match cs with
    | [] => some (floatOfParts neg ip fp 0)
    | 'e' :: rest =>
        let se : Bool × List Char :=
          match rest with
          | '-' :: r2 => (true, r2)
          | '+' :: r2 => (false, r2)
          | _ => (false, rest)
        let ep := takeDigitPart se.2
        if ep.1.isEmpty || !ep.2.isEmpty then none
        else some (floatOfParts neg ip fp ((if se.1 then -1 else 1) * Int.ofNat (digitsVal ep.1)))
    | _ => none

/-- Body of the Python float grammar after sign removal: the inf, infinity
and nan words, or a decimal number `[digitpart] ["." [digitpart]]
[exponent]`. -/
def parseFloatBody (neg : Bool) (cs : List Char) : Option PyNum :=
  if cs = ['i', 'n', 'f'] ∨ cs = ['i', 'n', 'f', 'i', 'n', 'i', 't', 'y'] then
    some (PyNum.inf (!neg))
  else if cs = ['n', 'a', 'n'] then some PyNum.nan
  else
    let ip := takeDigitPart cs
    match ip.2 with
    | '.' :: rest =>
        let fp := takeDigitPart rest
        parseFloatTail neg ip.1 fp.1 fp.2
    | rest => parseFloatTail neg ip.1 [] rest

/-- Python `float(str)`: surrounding whitespace is stripped, matching is case
insensitive, then an optional sign precedes the grammar body.  `none` is the
ValueError outcome; a decimal overflow yields infinity, never an error. -/
def parseFloatChars (s : List Char) : Option PyNum :=
  let t := pyLower (pyStrip s)
  match t with
  | '-' :: rest => parseFloatBody true rest
  | '+' :: rest => parseFloatBody false rest
  | _ => parseFloatBody false t

/-- The three outcomes of Python `float(value)`: a value, a TypeError or
ValueError (caught by the except clause of the script), or an OverflowError
(raised for huge ints and caught nowhere in the script). -/
inductive FloatAttempt : Type where
  | ok (v : PyNum)
  | valueError
  | overflowError
deriving DecidableEq

/-- CPython `float(int)` raises OverflowError exactly when rounding to
nearest would leave the double range. -/
def intOverflows (n : Int) : Bool :=
  decide (doubleOverflowNat ≤ n.natAbs)

/-- Python `float(value)`: booleans and numbers convert, ints subject to the
overflow rule, strings are parsed, every other type raises TypeError. -/
def pyFloat : JValue → FloatAttempt
  | .bool b => .ok (.fin (if b then 1 else 0))
  | .int n => if intOverflows n then .overflowError else .ok (.fin (mkRat n 1))
  | .num v => .ok v
  | .str s =>
      match parseFloatChars s.toList with
      | some v => .ok v
      | none => .valueError
  | _ => .valueError

/-- The helper `parse_float` of the script: `float(value)` inside a
`try/except (TypeError, ValueError)` that warns and returns `None`.  An
OverflowError is not caught by that clause and escapes as an error, with no
diagnostic. -/
def parse_float (value : JValue) (context : String) :
    Except String (Option PyNum) × List Warning :=
  match pyFloat value with
  | .ok v => (.ok (some v), [])
  | .valueError => (.ok none, [.invalidFloat value context])
  | .overflowError => (.error "OverflowError", [])

/-- The call `parse_float(time_key, ...)` of `convert_track` specialised to
its actual argument type: mapping keys are always str (JSON object keys), and
`float(str)` raises only ValueError — a decimal overflow yields infinity
rather than an exception — so this call is total.  The lemma
`parse_float_str_agrees` ties it to `parse_float`. -/
def parse_float_str (timeKey : String) (context : String) : Option PyNum × List Warning :=
  match parseFloatChars timeKey.toList with
  | some v => (some v, [])
  | none => (none, [.invalidFloat (.str timeKey) context])

/-- Value of `float()` with the fallback to 0.0 the script applies when the
caught failure path returns `None`; meaningful when no OverflowError
occurs. -/
def pyFloatD (v : JValue) : PyNum :=
  match pyFloat v with
  | .ok x => x
  | _ => .fin 0

/-- The helper `normalize_bool` of the script: native booleans pass through,
numbers are tested by `bool(x)` (only zero is falsy; nan and the infinities
are truthy), strings are stripped, lower-cased and compared against the
accepted set, anything else is false. -/
def normalize_bool (value : JValue) : Bool :=
  match value with
  | .bool b => b
  | .int n => n != 0
  | .num v =>
      match v with
      | .fin q => q != 0
      | _ => true
  | .str s =>
      [String.toList "true", String.toList "1", String.toList "yes", String.toList "y"].contains
        (pyLower (pyStrip s.toList))
  | _ => false

/-- Python float strict comparison: nan is incomparable to everything,
infinities compare by sign. -/
def PyNum.lt : PyNum → PyNum → Bool
  | .nan, _ => false
  | _, .nan => false
  | .fin a, .fin b => decide (a < b)
  | .fin _, .inf p => p
  | .inf p, .fin _ => !p
  | .inf p, .inf q => !p && q

/-- Python float non-strict comparison: nan is incomparable to everything,
infinities compare by sign. -/
def PyNum.le : PyNum → PyNum → Bool
  | .nan, _ => false
  | _, .nan => false
  | .fin a, .fin b => decide (a ≤ b)
  | .fin _, .inf p => p
  | .inf p, .fin _ => !p
  | .inf p, .inf q => (p == q) || (!p && q)

/-- One step of the stable insertion modelling `list.sort`: the element is
placed before the first element of the sorted prefix that is strictly greater
under the Python comparison. -/
def pyInsert (x : PyNum × JValue) : List (PyNum × JValue) → List (PyNum × JValue)
  | [] => [x]
  | b :: l => if PyNum.lt x.1 b.1 then x :: b :: l else b :: pyInsert x l

/-- The stable sort `entries.sort(key=lambda item: item[0])` of the script,
modelled by left-to-right stable insertion on the parse-time key. -/
def pySort (l : List (PyNum × JValue)) : List (PyNum × JValue) :=
  l.foldl (fun acc x => pyInsert x acc) []

/-- The keyframe value check of `convert_track`: the value must be an ordered
sequence of length at least three, of which the first three components are
kept (`value[0], value[1], value[2]`). -/
def seq3 : JValue → Option (JValue × JValue × JValue)
  | .list (v0 :: v1 :: v2 :: _) => some (v0, v1, v2)
  | _ => none

/-- The entry loop of `convert_track` on a mapping-form track: parse each time
key, keep values that are sequences of length at least three, and pair every
surviving keyframe with its parsed time as sort key. -/
def convertEntries : List (String × JValue) → String → List (PyNum × JValue) × List Warning
  | [], _ => ([], [])
  | (timeKey, value) :: rest, context =>
      let r := convertEntries rest context
      let pf := parse_float_str timeKey (context ++ " time")
      match pf.1 with
      | none => (r.1, pf.2 ++ r.2)
      | some t =>
          match seq3 value with
          | some (v0, v1, v2) =>
              ((t, .obj [("time", .num t), ("value", .list [v0, v1, v2])]) :: r.1, pf.2 ++ r.2)
          | none => (r.1, pf.2 ++ .invalidValue context timeKey :: r.2)

/-- The helper `convert_track` of the script: list-form tracks pass through
unchanged, non-list non-mapping tracks warn and yield the empty track, and
mapping-form tracks are converted entry by entry and stably sorted by parsed
time. -/
def convert_track (track : JValue) (context : String) : List JValue × List Warning :=
  match track with
  | .list xs => (xs, [])
  | .obj pairs =>
      let r := convertEntries pairs context
      ((pySort r.1).map Prod.snd, r.2)
  | _ => ([], [.invalidTrack context])

/-- The fixed channel tuple `("position", "rotation", "scale")`. -/
def channelList : List String := ["position", "rotation", "scale"]

/-- The channel loop of `convert_animation`: for each channel name present in
the bone, convert its track and store it under the same channel key. -/
def convertChannels : List String → List (String × JValue) → String →
    List (String × JValue) × List Warning
  | [], _, _ => ([], [])
  | ch :: rest, bone, context =>
      let r := convertChannels rest bone context
      match jget bone ch with
      | some tr =>
          let t := convert_track tr (context ++ ":" ++ ch)
          ((ch, .list t.1) :: r.1, t.2 ++ r.2)
      | none => r

/-- The bone loop of `convert_animation`: non-mapping bones are skipped and a
converted bone is kept only when its channel mapping is non-empty. -/
def convertBones : List (String × JValue) → String → List (String × JValue) × List Warning
  | [], _ => ([], [])
  | (boneName, bone) :: rest, context =>
      let r := convertBones rest context
      match bone with
      | .obj bonePairs =>
          let b := convertChannels channelList bonePairs (context ++ ":" ++ boneName)
          if b.1.isEmpty then (r.1, b.2 ++ r.2)
          else ((boneName, .obj b.1) :: r.1, b.2 ++ r.2)
      | _ => r

/-- The bones part of the per-animation body: the bone loop guarded by a
mapping check, with no diagnostic for a non-mapping bones value. -/
def convertAnimBones (anim : List (String × JValue)) (context : String) :
    List (String × JValue) × List Warning :=
  match jgetD anim "bones" (.obj []) with
  | .obj bs => convertBones bs context
  | _ => ([], [])

/-- The per-animation body of `convert_animation`: duration with
`animation_length` fallback, caught parse failures defaulting to zero and an
uncaught OverflowError propagating, then loop normalisation and the bone
loop. -/
def convertAnim (anim : List (String × JValue)) (context : String) :
    Except String (JValue × List Warning) :=
  let duration := jgetD anim "duration" (jgetD anim "animation_length" (.num (.fin 0)))
  let pf := parse_float duration (context ++ " duration")
  match pf.1 with
  | .error e => .error e
  | .ok dOpt =>
      let b := convertAnimBones anim context
      .ok (.obj [("duration", .num (dOpt.getD (PyNum.fin 0))),
        ("loop", .bool (normalize_bool (jgetD anim "loop" (.bool false)))),
        ("bones", .obj b.1)], pf.2 ++ b.2)

/-- The animation loop of `convert_animation`: non-mapping animation entries
are skipped without diagnostic, and an error from any entry aborts the
whole conversion. -/
def convertAnims : List (String × JValue) → String →
    Except String (List (String × JValue) × List Warning)
  | [], _ => .ok ([], [])
  | (name, anim) :: rest, source =>
      match anim with
      | .obj a =>
          match convertAnim a (source ++ ":" ++ name) with
          | .error e => .error e
          | .ok c =>
              match convertAnims rest source with
              | .error e => .error e
              | .ok r => .ok ((name, c.1) :: r.1, c.2 ++ r.2)
      | _ => convertAnims rest source

/-- The converter `convert_animation` of the script, taking the fields of the
top-level mapping: read `animations` (defaulting to the empty mapping), warn
and return the empty result when it is not a mapping, otherwise convert every
animation entry; an uncaught OverflowError from a duration escapes. -/
def convert_animation (data : List (String × JValue)) (source : String) :
    Except String (JValue × List Warning) :=
  match jgetD data "animations" (.obj []) with
  | .obj anims =>
      match convertAnims anims source with
      | .error e => .error e
      | .ok r => .ok (.obj [("animations", .obj r.1)], r.2)
  | _ => .ok (.obj [("animations", .obj [])], [.noAnimationsMap source])

/-- Field lookup on an output object, used to state properties of single
fields of converted animations. -/
def animField (v : JValue) (key : String) : Option JValue :=
  match v with
  | .obj l => jget l key
  | _ => none

/-- Animation list of an output document, used to quantify over output
animations. -/
def animationsOf (doc : JValue) : List (String × JValue) :=
  match doc with
  | .obj [("animations", .obj l)] => l
  | _ => []

/-- Time field of an output keyframe object, zero on any other shape. -/
def entryTime (e : JValue) : PyNum :=
  match e with
  | .obj l =>
      match jget l "time" with
      | some (.num t) => t
      | _ => .fin 0
  | _ => .fin 0

/-- Track check of the Target shape of the specification: the track is
already an ordered sequence. -/
def isListTrack (v : JValue) : Bool :=
  match v with
  | .list _ => true
  | _ => false

/-- Bone fields check of the Target shape of the specification: the keys form
an in-order subsequence of the given channel names and every channel value is
a list-form track. -/
def isTargetBoneFields (l : List (String × JValue)) (chs : List String) : Bool :=
  match l, chs with
  | [], _ => true
  | _ :: _, [] => false
  | (k, v) :: rest, c :: cs =>
      if k = c then isListTrack v && isTargetBoneFields rest cs
      else isTargetBoneFields ((k, v) :: rest) cs
termination_by structural chs

/-- Bone check of the Target shape of the specification: a non-empty mapping
of list-form channels in channel order. -/
def isTargetBone (v : JValue) : Bool :=
  match v with
  | .obj l => !l.isEmpty && isTargetBoneFields l channelList
  | _ => false

/-- Animation check of the Target shape of the specification: exactly the
keys duration (a float), loop (a boolean) and bones (a mapping of Target
bones), in this order. -/
def isTargetAnim (v : JValue) : Bool :=
  match v with
  | .obj [(k1, JValue.num _), (k2, JValue.bool _), (k3, JValue.obj bs)] =>
      decide (k1 = "duration") && decide (k2 = "loop") && decide (k3 = "bones") &&
        bs.all fun p => isTargetBone p.2
  | _ => false

/-- Document check of the Target shape of the specification: exactly one key
animations holding a mapping of Target animations. -/
def isTargetDoc (fields : List (String × JValue)) : Bool :=
  match fields with
  | [(k, JValue.obj anims)] =>
      decide (k = "animations") && anims.all fun p => isTargetAnim p.2
  | _ => false

/-- The worked example of the spec: one animation with a string duration, a
"yes" loop flag and one mapping-form position track given out of order. -/
def exampleDoc : List (String × JValue) :=
  [("animations", .obj [("run", .obj [
     ("duration", .str "1.5"),
     ("loop", .str "yes"),
     ("bones", .obj [("hip", .obj [("position", .obj [
        ("0", .list [.int 0, .int 0, .int 0]),
        ("1.0", .list [.int 0, .int 1, .int 0]),
        ("0.5", .list [.int 0, .num (.fin (mkRat 1 2)), .int 0])])])])])])]

/-- Counterexample document for C2: one bone whose single present channel is
an empty mapping, which normalizes to the empty track. -/
def emptyChannelDoc : List (String × JValue) :=
  [("animations", .obj [("a", .obj [("bones",
    .obj [("hip", .obj [("position", .obj [])])])])])]

/-- Counterexample track for C3: the time key "nan" parses to nan, which is
incomparable, so the resulting track is not sorted. -/
def nanTrack : List (String × JValue) :=
  [("nan", .list [.int 0, .int 0, .int 0]), ("0", .list [.int 0, .int 0, .int 0])]

/-- A small track with all times finite, used to witness the amended C3. -/
def finiteTrack : List (String × JValue) :=
  [("1.0", .list [.int 1, .int 2, .int 3]), ("0.5", .list [.int 4, .int 5, .int 6])]

/-- A concrete Target-shaped document used to witness C9. -/
def targetDoc : List (String × JValue) :=
  [("animations", .obj [("run", .obj [
    ("duration", .num (.fin 2)),
    ("loop", .bool true),
    ("bones", .obj [("hip", .obj [("position",
      .list [.obj [("time", .num (.fin 0)), ("value", .list [.int 1, .int 2, .int 3])]])])])])])]

/-- A valid JSON document whose duration is the integer 10^400: json.loads
parses it to a Python int, and float() on it raises OverflowError. -/
def hugeDurationDoc : List (String × JValue) :=
  [("animations", .obj [("a", .obj [("duration",
    .int 10000000000000000000000000000000000000000000000000000000000000000000000000000000000000000000000000000000000000000000000000000000000000000000000000000000000000000000000000000000000000000000000000000000000000000000000000000000000000000000000000000000000000000000000000000000000000000000000000000000000000000000000000000000000000000000000000000000000000000000000000000000000000000000000000000000000)])])]

lemma parse_float_str_agrees (s : String) (context : String) :
    parse_float (.str s) context =
      (.ok (parse_float_str s context).1, (parse_float_str s context).2) := by
  cases h : parseFloatChars s.toList <;> simp only [String.toList] at h <;>
    simp [parse_float, pyFloat, parse_float_str, String.toList, h]

/-- C1: on the concrete example document, `convert_animation` succeeds with
no diagnostics, coercing the duration string to 1.5, the loop flag to true,
and normalizing the mapping-form position track into a list of time/value
keyframes sorted by time 0, 0.5, 1. -/
theorem C1_example_document :
    convert_animation exampleDoc "src" =
      .ok (.obj [("animations", .obj [("run", .obj [
        ("duration", .num (.fin (mkRat 3 2))),
        ("loop", .bool true),
        ("bones", .obj [("hip", .obj [("position", .list [
          .obj [("time", .num (.fin 0)), ("value", .list [.int 0, .int 0, .int 0])],
          .obj [("time", .num (.fin (mkRat 1 2))),
            ("value", .list [.int 0, .num (.fin (mkRat 1 2)), .int 0])],
          .obj [("time", .num (.fin 1)), ("value", .list [.int 0, .int 1, .int 0])]])])])])])],
        []) := by
  rfl

/-- C4: a track that is already an ordered sequence is returned unchanged by
`convert_track`, whatever its entries look like, and no diagnostic is
emitted. -/
theorem C4_list_passthrough (xs : List JValue) (context : String) :
    convert_track (.list xs) context = (xs, []) := rfl

/-- C5: the code contradicts the never-raises policy of the specification: on
a valid top-level mapping whose duration is a huge integer, float() raises
OverflowError, which the except (TypeError, ValueError) clause of parse_float
does not catch, and convert_animation aborts with an uncaught exception. -/
theorem C5_overflow_crash :
    convert_animation hugeDurationDoc "src" = .error "OverflowError" := by
  rfl

/-- C7: `normalize_bool` passes native booleans through, tests numbers
against zero (nan and the infinities are truthy), accepts exactly the trimmed
lower-cased strings "true", "1", "yes", "y", and yields false on every other
type; in particular "NO" gives false, 0 gives false and 2 gives true. -/
theorem C7_normalize_bool :
    (∀ b, normalize_bool (.bool b) = b) ∧
    (∀ n : Int, (normalize_bool (.int n) = true ↔ n ≠ 0)) ∧
    (∀ v : PyNum, (normalize_bool (.num v) = true ↔ v ≠ PyNum.fin 0)) ∧
    (∀ s : String, (normalize_bool (.str s) = true ↔
        pyLower (pyStrip s.toList) ∈
          [String.toList "true", String.toList "1", String.toList "yes", String.toList "y"])) ∧
    normalize_bool .null = false ∧
    (∀ xs, normalize_bool (.list xs) = false) ∧
    (∀ l, normalize_bool (.obj l) = false) ∧
    normalize_bool (.str "NO") = false ∧
    normalize_bool (.int 0) = false ∧
    normalize_bool (.int 2) = true := by
  refine ⟨fun b => rfl, fun n => ?_, fun v => ?_, fun s => ?_, rfl, fun xs => rfl,
    fun l => rfl, by rfl, by rfl, by rfl⟩
  · simp [normalize_bool]
  · cases v <;> simp [normalize_bool]
  · simp [normalize_bool]

/-- C8: the output always carries an `animations` key; when the source has no
`animations` key the result is exactly the empty animations document with no
diagnostic, and when the `animations` value is not a mapping the result is
the same empty document together with one diagnostic and no exception. -/
theorem C8_animations_shape :
    (∀ (data : List (String × JValue)) (source : String), jget data "animations" = none →
        convert_animation data source = .ok (.obj [("animations", .obj [])], [])) ∧
    (∀ (data : List (String × JValue)) (source : String) (v : JValue),
        jget data "animations" = some v → (∀ l, v ≠ .obj l) →
        convert_animation data source =
          .ok (.obj [("animations", .obj [])], [.noAnimationsMap source])) ∧
    (∀ (data : List (String × JValue)) (source : String) (r : JValue × List Warning),
        convert_animation data source = .ok r →
        ∃ animsOut, r.1 = .obj [("animations", .obj animsOut)]) := by
  refine ⟨fun data source h => ?_, fun data source v h hv => ?_, fun data source r h => ?_⟩
  · unfold convert_animation jgetD
    rw [h]
    rfl
  · unfold convert_animation jgetD
    rw [h]
    cases v with
    | obj l => exact absurd rfl (hv l)
    | null => rfl
    | bool b => rfl
    | int n => rfl
    | num q => rfl
    | str s => rfl
    | list xs => rfl
  · cases hb : jgetD data "animations" (.obj []) with
    | obj anims =>
        simp only [convert_animation, hb] at h
        cases h2 : convertAnims anims source with
        | error e => rw [h2] at h; cases h
        | ok r2 =>
            rw [h2] at h
            injection h with h3
            exact ⟨r2.1, by rw [← h3]⟩
    | null =>
        simp only [convert_animation, hb] at h
        injection h with h3
        exact ⟨[], by rw [← h3]⟩
    | bool b2 =>
        simp only [convert_animation, hb] at h
        injection h with h3
        exact ⟨[], by rw [← h3]⟩
    | int n2 =>
        simp only [convert_animation, hb] at h
        injection h with h3
        exact ⟨[], by rw [← h3]⟩
    | num q2 =>
        simp only [convert_animation, hb] at h
        injection h with h3
        exact ⟨[], by rw [← h3]⟩
    | str s2 =>
        simp only [convert_animation, hb] at h
        injection h with h3
        exact ⟨[], by rw [← h3]⟩
    | list xs =>
        simp only [convert_animation, hb] at h
        injection h with h3
        exact ⟨[], by rw [← h3]⟩

/-- Witness for C8: the three parts applied to concrete documents with a
missing, a string-valued and an integer-valued `animations` entry. -/
theorem C8_animations_shape_witness :
    convert_animation [] "s" = .ok (.obj [("animations", .obj [])], []) ∧
    convert_animation [("animations", .str "x")] "s" =
      .ok (.obj [("animations", .obj [])], [.noAnimationsMap "s"]) ∧
    ∃ animsOut, ((.obj [("animations", .obj [])], [Warning.noAnimationsMap "s"]) :
        JValue × List Warning).1 = .obj [("animations", .obj animsOut)] :=
  ⟨C8_animations_shape.1 [] "s" rfl,
   C8_animations_shape.2.1 [("animations", .str "x")] "s" (.str "x") rfl
     (fun _ h => JValue.noConfusion h),
   C8_animations_shape.2.2 [("animations", .int 3)] "s"
     (.obj [("animations", .obj [])], [Warning.noAnimationsMap "s"]) rfl⟩

lemma convertChannels_ne_nil (chs : List String) (l : List (String × JValue)) (context : String) :
    (convertChannels chs l context).1 ≠ [] ↔ ∃ c ∈ chs, (jget l c).isSome := by
  induction chs with
  | nil => simp [convertChannels]
  | cons c cs ih =>
      simp only [convertChannels]
      cases h : jget l c with
      | none => simp [h, ih]
      | some tr => simp [h]

/-- C2 counterexample: in the converted document the bone "hip" is present in
the output bones mapping although its only channel normalized to the empty
track — the code gates bone inclusion on channel-key presence, not on a
non-empty normalized track. -/
theorem C2_counterexample :
    convert_animation emptyChannelDoc "src" =
      .ok (.obj [("animations", .obj [("a", .obj [
        ("duration", .num (.fin 0)), ("loop", .bool false),
        ("bones", .obj [("hip", .obj [("position", .list [])])])])])], []) ∧
    (convert_track (.obj []) "src:a:hip:position").1 = [] :=
  ⟨rfl, rfl⟩

lemma exists_mem_cons_not_obj (n bn : String) (b : JValue) (rest : List (String × JValue))
    (h : ∀ l, b ≠ JValue.obj l) (P : List (String × JValue) → Prop) :
    (∃ b2, (n, b2) ∈ (bn, b) :: rest ∧ ∃ l, b2 = JValue.obj l ∧ P l) ↔
      ∃ b2, (n, b2) ∈ rest ∧ ∃ l, b2 = JValue.obj l ∧ P l := by
  constructor
  · rintro ⟨b2, hmem, l, rfl, hp⟩
    rcases List.mem_cons.mp hmem with hm | hm
    · simp only [Prod.mk.injEq] at hm
      exact absurd hm.2.symm (h l)
    · exact ⟨_, hm, l, rfl, hp⟩
  · rintro ⟨b2, hmem, hp⟩
    exact ⟨b2, List.mem_cons_of_mem _ hmem, hp⟩

/-- C2 amended: a bone name appears in the output bones mapping of an
animation exactly when its source entry is a mapping in which at least one of
the channel keys position, rotation, scale is present — regardless of whether
the normalized tracks are empty. -/
theorem C2_amended_bone_presence (bs : List (String × JValue)) (context : String) (n : String) :
    (∃ v, (n, v) ∈ (convertBones bs context).1) ↔
      ∃ b, (n, b) ∈ bs ∧ ∃ l, b = .obj l ∧ ∃ c ∈ channelList, (jget l c).isSome := by
  induction bs with
  | nil => simp [convertBones]
  | cons head rest ih =>
      obtain ⟨bn, b⟩ := head
      simp only [convertBones]
      cases b with
      | obj bonePairs =>
          dsimp only
          by_cases he : (convertChannels channelList bonePairs (context ++ ":" ++ bn)).1.isEmpty = true
          · have hnil : (convertChannels channelList bonePairs (context ++ ":" ++ bn)).1 = [] :=
              List.isEmpty_iff.mp he
            have hno : ¬ ∃ c ∈ channelList, (jget bonePairs c).isSome = true := by
              rw [← convertChannels_ne_nil channelList bonePairs (context ++ ":" ++ bn)]
              simp [hnil]
            rw [if_pos he, ih]
            constructor
            · rintro ⟨b, hb, hshape⟩
              exact ⟨b, List.mem_cons_of_mem _ hb, hshape⟩
            · rintro ⟨b, hb, l, rfl, hc⟩
              rcases List.mem_cons.mp hb with hb | hb
              · simp only [Prod.mk.injEq, JValue.obj.injEq] at hb
                obtain ⟨hb1, rfl⟩ := hb
                exact absurd hc hno
              · exact ⟨_, hb, l, rfl, hc⟩
          · have hsome : ∃ c ∈ channelList, (jget bonePairs c).isSome = true := by
              rw [← convertChannels_ne_nil channelList bonePairs (context ++ ":" ++ bn)]
              simpa [List.isEmpty_iff] using he
            rw [if_neg he]
            constructor
            · rintro ⟨v, hv⟩
              rcases List.mem_cons.mp hv with hv | hv
              · simp only [Prod.mk.injEq] at hv
                refine ⟨.obj bonePairs, ?_, bonePairs, rfl, hsome⟩
                rw [hv.1]
                exact List.mem_cons_self _ _
              · exact (ih.mp ⟨v, hv⟩).elim fun b hb =>
                  ⟨b, List.mem_cons_of_mem _ hb.1, hb.2⟩
            · rintro ⟨b, hb, l, rfl, hc⟩
              rcases List.mem_cons.mp hb with hb | hb
              · simp only [Prod.mk.injEq] at hb
                refine ⟨.obj (convertChannels channelList bonePairs (context ++ ":" ++ bn)).1, ?_⟩
                rw [hb.1]
                exact List.mem_cons_self _ _
              · obtain ⟨v, hv⟩ := ih.mpr ⟨_, hb, l, rfl, hc⟩
                exact ⟨v, List.mem_cons_of_mem _ hv⟩
      | null =>
          rw [ih]
          exact (exists_mem_cons_not_obj n bn _ rest (fun l h => JValue.noConfusion h) _).symm
      | bool b2 =>
          rw [ih]
          exact (exists_mem_cons_not_obj n bn _ rest (fun l h => JValue.noConfusion h) _).symm
      | int n2 =>
          rw [ih]
          exact (exists_mem_cons_not_obj n bn _ rest (fun l h => JValue.noConfusion h) _).symm
      | num q2 =>
          rw [ih]
          exact (exists_mem_cons_not_obj n bn _ rest (fun l h => JValue.noConfusion h) _).symm
      | str s2 =>
          rw [ih]
          exact (exists_mem_cons_not_obj n bn _ rest (fun l h => JValue.noConfusion h) _).symm
      | list xs =>
          rw [ih]
          exact (exists_mem_cons_not_obj n bn _ rest (fun l h => JValue.noConfusion h) _).symm

lemma convertAnim_ok_of_not_overflow (a : List (String × JValue)) (context : String)
    (h : pyFloat (jgetD a "duration" (jgetD a "animation_length" (.num (.fin 0))))
      ≠ FloatAttempt.overflowError) :
    convertAnim a context = .ok (.obj [
      ("duration", .num (pyFloatD (jgetD a "duration" (jgetD a "animation_length"
        (.num (.fin 0)))))),
      ("loop", .bool (normalize_bool (jgetD a "loop" (.bool false)))),
      ("bones", .obj (convertAnimBones a context).1)],
      (parse_float (jgetD a "duration" (jgetD a "animation_length" (.num (.fin 0))))
        (context ++ " duration")).2 ++ (convertAnimBones a context).2) := by
  cases hpf : pyFloat (jgetD a "duration" (jgetD a "animation_length" (.num (.fin 0)))) with
  | overflowError => exact absurd hpf h
  | ok v => simp [convertAnim, parse_float, pyFloatD, hpf]
  | valueError => simp [convertAnim, parse_float, pyFloatD, hpf]

lemma pyFloatD_jgetD (a : List (String × JValue)) :
    pyFloatD (jgetD a "duration" (jgetD a "animation_length" (.num (.fin 0)))) =
      (match jget a "duration" with
        | some v => pyFloatD v
        | none =>
            match jget a "animation_length" with
            | some v => pyFloatD v
            | none => PyNum.fin 0) := by
  unfold jgetD
  cases h1 : jget a "duration" with
  | some v => simp
  | none =>
      cases h2 : jget a "animation_length" with
      | some v => simp
      | none => simp [pyFloatD, pyFloat]

/-- C6 counterexample: an animation entry that is a mapping, whose duration
is a huge integer; float() raises an uncaught OverflowError, the conversion
aborts, and no output animation (in particular no duration key) is produced
at all. -/
theorem C6_counterexample :
    convertAnim
      [("duration", .int 10000000000000000000000000000000000000000000000000000000000000000000000000000000000000000000000000000000000000000000000000000000000000000000000000000000000000000000000000000000000000000000000000000000000000000000000000000000000000000000000000000000000000000000000000000000000000000000000000000000000000000000000000000000000000000000000000000000000000000000000000000000000000000000000000000000000)]
      "src:a" = .error "OverflowError" := by
  rfl

/-- C6 amended: for every mapping animation entry whose chosen duration value
does not overflow the float conversion, the conversion succeeds and the
output duration is the parsed float of the `duration` value if that key is
present, else of the `animation_length` value if present, else 0; a caught
parse failure falls back to 0, and the `duration` key is present in the
output animation. -/
theorem C6_amended_duration (a : List (String × JValue)) (context : String)
    (h : pyFloat (jgetD a "duration" (jgetD a "animation_length" (.num (.fin 0))))
      ≠ FloatAttempt.overflowError) :
    ∃ r, convertAnim a context = .ok r ∧
      animField r.1 "duration" = some (.num (match jget a "duration" with
        | some v => pyFloatD v
        | none =>
            match jget a "animation_length" with
            | some v => pyFloatD v
            | none => PyNum.fin 0)) := by
  refine ⟨_, convertAnim_ok_of_not_overflow a context h, ?_⟩
  rw [← pyFloatD_jgetD]
  rfl

/-- Witness for C6: the amended duration law applied to a concrete animation
whose duration string uses an exponent, parsed by float() to 100000. -/
theorem C6_amended_duration_witness :
    ∃ r, convertAnim [("duration", .str "1e5")] "c" = .ok r ∧
      animField r.1 "duration" = some (.num (.fin 100000)) :=
  C6_amended_duration [("duration", .str "1e5")] "c" (by decide)

/-- Sort order on decorated entries: the Python comparison of the parse-time
keys. -/
def leKey (p q : PyNum × JValue) : Prop := PyNum.le p.1 q.1 = true

lemma pyNum_lt_irrefl (a : PyNum) : PyNum.lt a a = false := by
  cases a with
  | nan => rfl
  | fin q => exact decide_eq_false (lt_irrefl q)
  | inf p => cases p <;> rfl

lemma pyNum_le_of_lt : ∀ {a b : PyNum}, PyNum.lt a b = true → PyNum.le a b = true := by
  intro a b h
  cases a with
  | nan => cases b <;> exact Bool.noConfusion h
  | fin qa =>
      cases b with
      | nan => exact Bool.noConfusion h
      | fin qb => exact decide_eq_true (le_of_lt (of_decide_eq_true h))
      | inf p => exact h
  | inf p =>
      cases b with
      | nan => exact Bool.noConfusion h
      | fin qb => exact h
      | inf q =>
          cases p <;> cases q <;> first | rfl | exact Bool.noConfusion h

lemma pyNum_le_trans : ∀ {a b c : PyNum},
    PyNum.le a b = true → PyNum.le b c = true → PyNum.le a c = true := by
  intro a b c h1 h2
  cases a with
  | nan => cases b <;> exact Bool.noConfusion h1
  | fin qa =>
      cases b with
      | nan => exact Bool.noConfusion h1
      | fin qb =>
          cases c with
          | nan => exact Bool.noConfusion h2
          | fin qc => exact decide_eq_true (le_trans (of_decide_eq_true h1) (of_decide_eq_true h2))
          | inf r => exact h2
      | inf q =>
          cases c with
          | nan => exact Bool.noConfusion h2
          | fin qc =>
              cases q with
              | false => exact Bool.noConfusion h1
              | true => exact Bool.noConfusion h2
          | inf r =>
              cases q with
              | false => exact Bool.noConfusion h1
              | true =>
                  cases r with
                  | true => rfl
                  | false => exact Bool.noConfusion h2
  | inf p =>
      cases b with
      | nan => exact Bool.noConfusion h1
      | fin qb =>
          cases c with
          | nan => exact Bool.noConfusion h2
          | fin qc => exact h1
          | inf r =>
              cases p with
              | true => exact Bool.noConfusion h1
              | false =>
                  cases r with
                  | true => rfl
                  | false => exact Bool.noConfusion h2
      | inf q =>
          cases c with
          | nan => exact Bool.noConfusion h2
          | fin qc =>
              cases p with
              | false => rfl
              | true =>
                  cases q with
                  | true => exact Bool.noConfusion h2
                  | false => exact Bool.noConfusion h1
          | inf r =>
              cases p <;> cases q <;> cases r <;>
                first | rfl | exact Bool.noConfusion h1 | exact Bool.noConfusion h2

lemma pyNum_lt_of_lt_of_le : ∀ {a b c : PyNum},
    PyNum.lt a b = true → PyNum.le b c = true → PyNum.lt a c = true := by
  intro a b c h1 h2
  cases a with
  | nan => cases b <;> exact Bool.noConfusion h1
  | fin qa =>
      cases b with
      | nan => exact Bool.noConfusion h1
      | fin qb =>
          cases c with
          | nan => exact Bool.noConfusion h2
          | fin qc =>
              exact decide_eq_true (lt_of_lt_of_le (of_decide_eq_true h1) (of_decide_eq_true h2))
          | inf r => exact h2
      | inf q =>
          cases c with
          | nan => exact Bool.noConfusion h2
          | fin qc =>
              cases q with
              | false => exact Bool.noConfusion h1
              | true => exact Bool.noConfusion h2
          | inf r =>
              cases q with
              | false => exact Bool.noConfusion h1
              | true =>
                  cases r with
                  | true => rfl
                  | false => exact Bool.noConfusion h2
  | inf p =>
      cases b with
      | nan => exact Bool.noConfusion h1
      | fin qb =>
          cases c with
          | nan => exact Bool.noConfusion h2
          | fin qc => exact h1
          | inf r =>
              cases p with
              | true => exact Bool.noConfusion h1
              | false =>
                  cases r with
                  | true => rfl
                  | false => exact Bool.noConfusion h2
      | inf q =>
          cases c with
          | nan => exact Bool.noConfusion h2
          | fin qc =>
              cases p with
              | false => rfl
              | true => exact Bool.noConfusion h1
          | inf r =>
              cases p <;> cases q <;> cases r <;>
                first | rfl | exact Bool.noConfusion h1 | exact Bool.noConfusion h2

lemma pyNum_le_of_not_lt : ∀ {a b : PyNum}, a ≠ PyNum.nan → b ≠ PyNum.nan →
    PyNum.lt a b = false → PyNum.le b a = true := by
  intro a b ha hb h
  cases a with
  | nan => exact absurd rfl ha
  | fin qa =>
      cases b with
      | nan => exact absurd rfl hb
      | fin qb => exact decide_eq_true (le_of_not_lt (of_decide_eq_false h))
      | inf p =>
          cases p with
          | true => exact Bool.noConfusion h
          | false => rfl
  | inf p =>
      cases b with
      | nan => exact absurd rfl hb
      | fin qb =>
          cases p with
          | true => rfl
          | false => exact Bool.noConfusion h
      | inf q =>
          cases p <;> cases q <;> first | rfl | exact Bool.noConfusion h

lemma pyInsert_perm (x : PyNum × JValue) (l : List (PyNum × JValue)) :
    (pyInsert x l).Perm (x :: l) := by
  induction l with
  | nil => exact List.Perm.refl _
  | cons b l ih =>
      by_cases h : PyNum.lt x.1 b.1 = true
      · simp only [pyInsert, if_pos h]
        exact List.Perm.refl _
      · simp only [pyInsert, if_neg h]
        exact (ih.cons b).trans (List.Perm.swap x b l)

lemma pySort_aux_perm (l : List (PyNum × JValue)) :
    ∀ acc, (l.foldl (fun acc x => pyInsert x acc) acc).Perm (acc ++ l) := by
  induction l with
  | nil => intro acc; simp
  | cons x l ih =>
      intro acc
      have h1 := ih (pyInsert x acc)
      have h2 : (pyInsert x acc ++ l).Perm ((x :: acc) ++ l) :=
        (pyInsert_perm x acc).append_right l
      have h3 : ((x :: acc) ++ l).Perm (acc ++ x :: l) := by
        simpa using List.perm_middle.symm
      exact (h1.trans h2).trans h3

lemma pySort_perm (l : List (PyNum × JValue)) : (pySort l).Perm l := by
  simpa using pySort_aux_perm l []

lemma pyInsert_noNan (x : PyNum × JValue) (acc : List (PyNum × JValue))
    (hx : x.1 ≠ PyNum.nan) (hacc : ∀ p ∈ acc, p.1 ≠ PyNum.nan) :
    ∀ p ∈ pyInsert x acc, p.1 ≠ PyNum.nan := by
  intro p hp
  rcases List.mem_cons.mp ((pyInsert_perm x acc).mem_iff.mp hp) with rfl | hp2
  · exact hx
  · exact hacc p hp2

lemma pyInsert_pairwise (x : PyNum × JValue) (acc : List (PyNum × JValue))
    (hx : x.1 ≠ PyNum.nan) (hacc : ∀ p ∈ acc, p.1 ≠ PyNum.nan)
    (hs : acc.Pairwise leKey) : (pyInsert x acc).Pairwise leKey := by
  induction acc with
  | nil => simp [pyInsert, List.pairwise_cons]
  | cons b l ih =>
      obtain ⟨hb, hl⟩ := List.pairwise_cons.mp hs
      have hbn : b.1 ≠ PyNum.nan := hacc b (List.mem_cons_self b l)
      have hln : ∀ p ∈ l, p.1 ≠ PyNum.nan := fun p hp => hacc p (List.mem_cons_of_mem _ hp)
      by_cases h : PyNum.lt x.1 b.1 = true
      · simp only [pyInsert, if_pos h]
        refine List.pairwise_cons.mpr ⟨?_, hs⟩
        intro z hz
        rcases List.mem_cons.mp hz with rfl | hz2
        · exact pyNum_le_of_lt h
        · exact pyNum_le_of_lt (pyNum_lt_of_lt_of_le h (hb z hz2))
      · have hf : PyNum.lt x.1 b.1 = false := by
          cases hc : PyNum.lt x.1 b.1
          · rfl
          · exact absurd hc h
        simp only [pyInsert, if_neg h]
        refine List.pairwise_cons.mpr ⟨?_, ih hln hl⟩
        intro z hz
        rcases List.mem_cons.mp ((pyInsert_perm x l).mem_iff.mp hz) with rfl | hz2
        · exact pyNum_le_of_not_lt hx hbn hf
        · exact hb z hz2

lemma pySort_aux_pairwise (l : List (PyNum × JValue)) :
    ∀ acc, (∀ p ∈ l, p.1 ≠ PyNum.nan) → (∀ p ∈ acc, p.1 ≠ PyNum.nan) →
      acc.Pairwise leKey →
      (l.foldl (fun acc x => pyInsert x acc) acc).Pairwise leKey := by
  induction l with
  | nil => intro acc _ _ hs; exact hs
  | cons x l ih =>
      intro acc hl hacc hs
      have hx : x.1 ≠ PyNum.nan := hl x (List.mem_cons_self x l)
      have hl2 : ∀ p ∈ l, p.1 ≠ PyNum.nan := fun p hp => hl p (List.mem_cons_of_mem _ hp)
      exact ih (pyInsert x acc) hl2 (pyInsert_noNan x acc hx hacc)
        (pyInsert_pairwise x acc hx hacc hs)

lemma pySort_pairwise (l : List (PyNum × JValue)) (h : ∀ p ∈ l, p.1 ≠ PyNum.nan) :
    (pySort l).Pairwise leKey :=
  pySort_aux_pairwise l [] h (by simp) List.Pairwise.nil

lemma pyInsert_filter_ne (t : PyNum) (x : PyNum × JValue) (acc : List (PyNum × JValue))
    (hx : (x.1 == t) = false) :
    (pyInsert x acc).filter (fun p => p.1 == t) = acc.filter (fun p => p.1 == t) := by
  induction acc with
  | nil => simp [pyInsert, hx]
  | cons b l ih =>
      by_cases h : PyNum.lt x.1 b.1 = true
      · simp [pyInsert, h, List.filter_cons, hx]
      · simp only [pyInsert, if_neg h]
        simp [List.filter_cons, ih]

lemma pyInsert_filter_eq (t : PyNum) (x : PyNum × JValue) (acc : List (PyNum × JValue))
    (hx : x.1 = t) (hs : acc.Pairwise leKey) :
    (pyInsert x acc).filter (fun p => p.1 == t) =
      acc.filter (fun p => p.1 == t) ++ [x] := by
  induction acc with
  | nil => simp [pyInsert, hx]
  | cons b l ih =>
      obtain ⟨hb, hl⟩ := List.pairwise_cons.mp hs
      by_cases h : PyNum.lt x.1 b.1 = true
      · have hnone : ∀ z ∈ b :: l, ((z.1 == t) = false) := by
          intro z hz
          have hlt : PyNum.lt x.1 z.1 = true := by
            rcases List.mem_cons.mp hz with rfl | hz2
            · exact h
            · exact pyNum_lt_of_lt_of_le h (hb z hz2)
          rw [beq_eq_false_iff_ne]
          intro hzt
          rw [hzt, ← hx] at hlt
          have hf := pyNum_lt_irrefl x.1
          rw [hlt] at hf
          exact Bool.noConfusion hf
        have hfil : (b :: l).filter (fun p => p.1 == t) = [] := by
          rw [List.filter_eq_nil_iff]
          intro a ha
          simp [hnone a ha]
        simp only [pyInsert, if_pos h]
        simp [List.filter_cons, hx, hfil]
      · simp only [pyInsert, if_neg h]
        by_cases hbt : (b.1 == t) = true
        · simp [List.filter_cons, hbt, ih hl]
        · have hbf : (b.1 == t) = false := by
            cases hc : (b.1 == t)
            · rfl
            · exact absurd hc hbt
          simp [List.filter_cons, hbf, ih hl]

lemma pySort_aux_filter (t : PyNum) (l : List (PyNum × JValue)) :
    ∀ acc, (∀ p ∈ l, p.1 ≠ PyNum.nan) → (∀ p ∈ acc, p.1 ≠ PyNum.nan) → acc.Pairwise leKey →
      (l.foldl (fun acc x => pyInsert x acc) acc).filter (fun p => p.1 == t) =
        acc.filter (fun p => p.1 == t) ++ l.filter (fun p => p.1 == t) := by
  induction l with
  | nil => intro acc _ _ _; simp
  | cons x l ih =>
      intro acc hl hacc hs
      have hx : x.1 ≠ PyNum.nan := hl x (List.mem_cons_self x l)
      have hl2 : ∀ p ∈ l, p.1 ≠ PyNum.nan := fun p hp => hl p (List.mem_cons_of_mem _ hp)
      have hstep := ih (pyInsert x acc) hl2 (pyInsert_noNan x acc hx hacc)
        (pyInsert_pairwise x acc hx hacc hs)
      by_cases hxt : (x.1 == t) = true
      · have hxe : x.1 = t := by
          have := hxt
          rwa [beq_iff_eq] at this
        rw [List.foldl_cons, hstep, pyInsert_filter_eq t x acc hxe hs]
        simp [List.filter_cons, hxt]
      · have hxf : (x.1 == t) = false := by
          cases hc : (x.1 == t)
          · rfl
          · exact absurd hc hxt
        rw [List.foldl_cons, hstep, pyInsert_filter_ne t x acc hxf]
        simp [List.filter_cons, hxf]

lemma pySort_filter (t : PyNum) (l : List (PyNum × JValue))
    (h : ∀ p ∈ l, p.1 ≠ PyNum.nan) :
    (pySort l).filter (fun p => p.1 == t) = l.filter (fun p => p.1 == t) := by
  simpa using pySort_aux_filter t l [] h (by simp) List.Pairwise.nil

lemma convertEntries_time (pairs : List (String × JValue)) (context : String) :
    ∀ p ∈ (convertEntries pairs context).1, entryTime p.2 = p.1 := by
  induction pairs with
  | nil => simp [convertEntries]
  | cons head rest ih =>
      obtain ⟨timeKey, value⟩ := head
      intro p hp
      simp only [convertEntries] at hp
      cases h1 : (parse_float_str timeKey (context ++ " time")).1 with
      | none =>
          rw [h1] at hp
          exact ih p hp
      | some t =>
          rw [h1] at hp
          cases h2 : seq3 value with
          | none =>
              rw [h2] at hp
              exact ih p hp
          | some v3 =>
              obtain ⟨v0, v1, v2⟩ := v3
              rw [h2] at hp
              rcases List.mem_cons.mp hp with hp | hp
              · subst hp
                simp [entryTime, jget]
              · exact ih p hp

lemma convertEntries_length (pairs : List (String × JValue)) (context : String) :
    (convertEntries pairs context).1.length ≤ pairs.length := by
  induction pairs with
  | nil => simp [convertEntries]
  | cons head rest ih =>
      obtain ⟨timeKey, value⟩ := head
      simp only [convertEntries]
      cases h1 : (parse_float_str timeKey (context ++ " time")).1 with
      | none => simpa using Nat.le_succ_of_le ih
      | some t =>
          cases h2 : seq3 value with
          | none => simpa using Nat.le_succ_of_le ih
          | some v3 =>
              obtain ⟨v0, v1, v2⟩ := v3
              simpa using Nat.succ_le_succ ih

lemma filter_map_snd (l : List (PyNum × JValue)) (t : PyNum)
    (h : ∀ p ∈ l, entryTime p.2 = p.1) :
    (l.map Prod.snd).filter (fun e => entryTime e == t) =
      (l.filter (fun p => p.1 == t)).map Prod.snd := by
  induction l with
  | nil => rfl
  | cons a l ih =>
      have ha : entryTime a.2 = a.1 := h a (List.mem_cons_self a l)
      have ht : ∀ p ∈ l, entryTime p.2 = p.1 := fun p hp => h p (List.mem_cons_of_mem a hp)
      by_cases hat : a.1 = t
      · simp [List.filter_cons, List.map_cons, ha, hat, ih ht]
      · simp [List.filter_cons, List.map_cons, ha, hat, ih ht]

/-- C3 counterexample: on the mapping track with time keys "nan" and "0" the
program keeps the nan entry first and the track, exactly as computed here, is
not sorted non-decreasing by time, since nan compares false against
everything. -/
theorem C3_counterexample :
    (convert_track (.obj nanTrack) "src:a:hip:position").1 =
      [.obj [("time", .num PyNum.nan), ("value", .list [.int 0, .int 0, .int 0])],
       .obj [("time", .num (.fin 0)), ("value", .list [.int 0, .int 0, .int 0])]] ∧
    ¬ List.Pairwise (fun a b => PyNum.le (entryTime a) (entryTime b) = true)
        (convert_track (.obj nanTrack) "src:a:hip:position").1 := by
  refine ⟨rfl, ?_⟩
  intro hp
  have h1 := (List.pairwise_cons.mp hp).1 _ (List.mem_cons_self _ _)
  exact Bool.noConfusion h1

/-- C3 amended: on every mapping-form track none of whose time keys parses to
nan, the normalized sequence is sorted non-decreasing by the time field;
entries with equal parsed time keep the relative order in which their keys
appear in the input mapping (the filter of the output at each time equals the
filter of the surviving entries in input order); and the output is never
longer than the input. -/
theorem C3_amended_sorted_stable (pairs : List (String × JValue)) (context : String)
    (h : ∀ p ∈ (convertEntries pairs context).1, p.1 ≠ PyNum.nan) :
    List.Pairwise (fun a b => PyNum.le (entryTime a) (entryTime b) = true)
      (convert_track (.obj pairs) context).1 ∧
    (∀ t : PyNum,
      (convert_track (.obj pairs) context).1.filter (fun e => entryTime e == t) =
        ((convertEntries pairs context).1.map Prod.snd).filter (fun e => entryTime e == t)) ∧
    (convert_track (.obj pairs) context).1.length ≤ pairs.length := by
  have hperm := pySort_perm (convertEntries pairs context).1
  have hmem : ∀ p ∈ pySort (convertEntries pairs context).1, entryTime p.2 = p.1 :=
    fun p hp => convertEntries_time pairs context p (hperm.mem_iff.mp hp)
  refine ⟨?_, fun t => ?_, ?_⟩
  · have hs := pySort_pairwise (convertEntries pairs context).1 h
    show List.Pairwise _ ((pySort (convertEntries pairs context).1).map Prod.snd)
    rw [List.pairwise_map]
    exact hs.imp_of_mem fun {p q} hp hq hle => by
      have h1 := hmem p hp
      have h2 := hmem q hq
      rw [h1, h2]
      exact hle
  · show ((pySort (convertEntries pairs context).1).map Prod.snd).filter _ = _
    rw [filter_map_snd _ t hmem, pySort_filter t _ h,
      ← filter_map_snd _ t (convertEntries_time pairs context)]
  · show (((pySort (convertEntries pairs context).1).map Prod.snd).length ≤ _)
    rw [List.length_map, hperm.length_eq]
    exact convertEntries_length pairs context

/-- Witness for C3: the amended sortedness and stability law applied to a
concrete track whose two times are finite, with the stability filter
instantiated at time 0.5. -/
theorem C3_amended_sorted_stable_witness :
    List.Pairwise (fun a b => PyNum.le (entryTime a) (entryTime b) = true)
      (convert_track (.obj finiteTrack) "c").1 ∧
    (convert_track (.obj finiteTrack) "c").1.filter
        (fun e => entryTime e == PyNum.fin (mkRat 1 2)) =
      ((convertEntries finiteTrack "c").1.map Prod.snd).filter
        (fun e => entryTime e == PyNum.fin (mkRat 1 2)) ∧
    (convert_track (.obj finiteTrack) "c").1.length ≤ finiteTrack.length :=
  ⟨(C3_amended_sorted_stable finiteTrack "c" (by decide)).1,
   (C3_amended_sorted_stable finiteTrack "c" (by decide)).2.1 (PyNum.fin (mkRat 1 2)),
   (C3_amended_sorted_stable finiteTrack "c" (by decide)).2.2⟩

lemma convertChannels_keys (chs : List String) (l : List (String × JValue)) (context : String) :
    ((convertChannels chs l context).1.map Prod.fst).Sublist chs := by
  induction chs with
  | nil => simp [convertChannels]
  | cons c cs ih =>
      cases h : jget l c with
      | none => simpa only [convertChannels, h] using ih.cons c
      | some tr => simpa only [convertChannels, h, List.map_cons] using ih.cons₂ c

lemma convertBones_shape (bs : List (String × JValue)) (context : String) :
    ∀ p ∈ (convertBones bs context).1, ∃ bl : List (String × JValue),
      p.2 = .obj bl ∧ bl ≠ [] ∧ (bl.map Prod.fst).Sublist channelList := by
  induction bs with
  | nil => simp [convertBones]
  | cons head rest ih =>
      obtain ⟨bn, b⟩ := head
      intro p hp
      cases b with
      | obj bonePairs =>
          simp only [convertBones] at hp
          by_cases he : (convertChannels channelList bonePairs (context ++ ":" ++ bn)).1.isEmpty = true
          · rw [if_pos he] at hp
            exact ih p hp
          · rw [if_neg he] at hp
            rcases List.mem_cons.mp hp with hp | hp
            · refine ⟨(convertChannels channelList bonePairs (context ++ ":" ++ bn)).1, ?_, ?_, ?_⟩
              · rw [hp]
              · intro hnil
                exact he (by simp [hnil])
              · exact convertChannels_keys channelList bonePairs (context ++ ":" ++ bn)
            · exact ih p hp
      | null => exact ih p hp
      | bool b2 => exact ih p hp
      | int n2 => exact ih p hp
      | num q2 => exact ih p hp
      | str s2 => exact ih p hp
      | list xs => exact ih p hp

lemma convertAnimBones_shape (a : List (String × JValue)) (context : String) :
    ∀ q ∈ (convertAnimBones a context).1, ∃ bl : List (String × JValue),
      q.2 = .obj bl ∧ bl ≠ [] ∧ (bl.map Prod.fst).Sublist channelList := by
  intro q hq
  cases hb : jgetD a "bones" (.obj []) with
  | obj bs =>
      simp only [convertAnimBones, hb] at hq
      exact convertBones_shape bs context q hq
  | null => simp [convertAnimBones, hb] at hq
  | bool b2 => simp [convertAnimBones, hb] at hq
  | int n2 => simp [convertAnimBones, hb] at hq
  | num q2 => simp [convertAnimBones, hb] at hq
  | str s2 => simp [convertAnimBones, hb] at hq
  | list xs => simp [convertAnimBones, hb] at hq

lemma convertAnim_shape (a : List (String × JValue)) (context : String)
    (r : JValue × List Warning) (h : convertAnim a context = .ok r) :
    ∃ d lb bs, r.1 = .obj [("duration", .num d), ("loop", .bool lb), ("bones", .obj bs)] ∧
      ∀ q ∈ bs, ∃ bl : List (String × JValue),
        q.2 = .obj bl ∧ bl ≠ [] ∧ (bl.map Prod.fst).Sublist channelList := by
  cases hpf : (parse_float (jgetD a "duration" (jgetD a "animation_length" (.num (.fin 0))))
      (context ++ " duration")).1 with
  | error e =>
      simp only [convertAnim, hpf] at h
      exact Except.noConfusion h
  | ok dOpt =>
      simp only [convertAnim, hpf] at h
      injection h with h2
      refine ⟨dOpt.getD (PyNum.fin 0), normalize_bool (jgetD a "loop" (.bool false)),
        (convertAnimBones a context).1, ?_, convertAnimBones_shape a context⟩
      rw [← h2]

lemma convertAnims_shape (anims : List (String × JValue)) (source : String) :
    ∀ rr, convertAnims anims source = .ok rr →
      ∀ p ∈ rr.1, ∃ d lb bs,
        p.2 = .obj [("duration", .num d), ("loop", .bool lb), ("bones", .obj bs)] ∧
        ∀ q ∈ bs, ∃ bl : List (String × JValue),
          q.2 = .obj bl ∧ bl ≠ [] ∧ (bl.map Prod.fst).Sublist channelList := by
  induction anims with
  | nil =>
      intro rr h p hp
      injection h with h2
      rw [← h2] at hp
      exact absurd hp (List.not_mem_nil p)
  | cons head rest ih =>
      intro rr h p hp
      obtain ⟨name, anim⟩ := head
      cases anim with
      | obj a =>
          cases hca : convertAnim a (source ++ ":" ++ name) with
          | error e =>
              simp only [convertAnims, hca] at h
              exact Except.noConfusion h
          | ok c =>
              cases hcr : convertAnims rest source with
              | error e =>
                  simp only [convertAnims, hca, hcr] at h
                  exact Except.noConfusion h
              | ok r2 =>
                  simp only [convertAnims, hca, hcr] at h
                  injection h with h2
                  rw [← h2] at hp
                  rcases List.mem_cons.mp hp with hp | hp
                  · obtain ⟨d, lb, bs, heq, hbones⟩ := convertAnim_shape a _ c hca
                    exact ⟨d, lb, bs, by rw [hp]; exact heq, hbones⟩
                  · exact ih r2 hcr p hp
      | null => exact ih rr h p hp
      | bool b2 => exact ih rr h p hp
      | int n2 => exact ih rr h p hp
      | num q2 => exact ih rr h p hp
      | str s2 => exact ih rr h p hp
      | list xs => exact ih rr h p hp

lemma jget_cons_ne (k key : String) (v : JValue) (l : List (String × JValue))
    (h : ¬ (k = key)) : jget ((k, v) :: l) key = jget l key := by
  simp [jget, h]

lemma convertChannels_cons_notMem (chs : List String) (bone : List (String × JValue))
    (context : String) (k : String) (v : JValue) :
    k ∉ chs → convertChannels chs ((k, v) :: bone) context = convertChannels chs bone context := by
  induction chs with
  | nil => intro h; rfl
  | cons c cs ih =>
      intro hk
      have hkc : ¬ (k = c) := fun h => hk (h ▸ List.mem_cons_self c cs)
      have hk2 : k ∉ cs := fun hm => hk (List.mem_cons_of_mem _ hm)
      simp only [convertChannels, jget_cons_ne k c v bone hkc, ih hk2]

/-- C10: every animation object in a successful output carries exactly the
keys duration, loop, bones in that insertion order, every output bone object
is a non-empty mapping whose keys form an in-order subsequence of position,
rotation, scale; and keys of a source animation or source bone other than the
consumed ones are dropped silently — prepending such a key changes neither
the result nor the emitted diagnostics. -/
theorem C10_output_key_structure :
    (∀ (data : List (String × JValue)) (source : String) (r : JValue × List Warning),
        convert_animation data source = .ok r →
        ∀ p ∈ animationsOf r.1, ∃ d lb bs,
          p.2 = .obj [("duration", .num d), ("loop", .bool lb), ("bones", .obj bs)] ∧
          ∀ q ∈ bs, ∃ bl : List (String × JValue),
            q.2 = .obj bl ∧ bl ≠ [] ∧ (bl.map Prod.fst).Sublist channelList) ∧
    (∀ (a : List (String × JValue)) (context : String) (k : String) (v : JValue),
        k ∉ ["duration", "animation_length", "loop", "bones"] →
        convertAnim ((k, v) :: a) context = convertAnim a context) ∧
    (∀ (bone : List (String × JValue)) (context : String) (k : String) (v : JValue),
        k ∉ channelList →
        convertChannels channelList ((k, v) :: bone) context =
          convertChannels channelList bone context) := by
  refine ⟨fun data source r h p hp => ?_, fun a context k v hk => ?_,
    fun bone context k v hk => convertChannels_cons_notMem channelList bone context k v hk⟩
  · cases hb : jgetD data "animations" (.obj []) with
    | obj anims =>
        simp only [convert_animation, hb] at h
        cases h2 : convertAnims anims source with
        | error e =>
            rw [h2] at h
            exact Except.noConfusion h
        | ok rr =>
            rw [h2] at h
            injection h with h3
            rw [← h3] at hp
            simp only [animationsOf] at hp
            exact convertAnims_shape anims source rr h2 p hp
    | null =>
        simp only [convert_animation, hb] at h
        injection h with h3
        rw [← h3] at hp
        simp [animationsOf] at hp
    | bool b2 =>
        simp only [convert_animation, hb] at h
        injection h with h3
        rw [← h3] at hp
        simp [animationsOf] at hp
    | int n2 =>
        simp only [convert_animation, hb] at h
        injection h with h3
        rw [← h3] at hp
        simp [animationsOf] at hp
    | num q2 =>
        simp only [convert_animation, hb] at h
        injection h with h3
        rw [← h3] at hp
        simp [animationsOf] at hp
    | str s2 =>
        simp only [convert_animation, hb] at h
        injection h with h3
        rw [← h3] at hp
        simp [animationsOf] at hp
    | list xs =>
        simp only [convert_animation, hb] at h
        injection h with h3
        rw [← h3] at hp
        simp [animationsOf] at hp
  · simp only [List.mem_cons, List.not_mem_nil, or_false, not_or] at hk
    obtain ⟨h1, h2, h3, h4⟩ := hk
    simp only [convertAnim, convertAnimBones, jgetD, jget_cons_ne k "duration" v a h1,
      jget_cons_ne k "animation_length" v a h2, jget_cons_ne k "loop" v a h3,
      jget_cons_ne k "bones" v a h4]

/-- Witness for C10: the structural part applied to a document with one empty
animation, and the two silence parts applied to an unrecognized key. -/
theorem C10_output_key_structure_witness :
    (∃ d lb bs,
      (("a", JValue.obj [("duration", JValue.num (.fin 0)), ("loop", JValue.bool false),
          ("bones", JValue.obj [])]) : String × JValue).2 =
        .obj [("duration", .num d), ("loop", .bool lb), ("bones", .obj bs)] ∧
      ∀ q ∈ bs, ∃ bl : List (String × JValue),
        q.2 = .obj bl ∧ bl ≠ [] ∧ (bl.map Prod.fst).Sublist channelList) ∧
    convertAnim [("extra", .null)] "c" = convertAnim [] "c" ∧
    convertChannels channelList [("extra", .null)] "c" =
      convertChannels channelList [] "c" :=
  ⟨C10_output_key_structure.1 [("animations", .obj [("a", .obj [])])] "s"
      (.obj [("animations", .obj [("a", .obj [("duration", .num (.fin 0)),
        ("loop", .bool false), ("bones", .obj [])])])], []) rfl
      ("a", .obj [("duration", .num (.fin 0)), ("loop", .bool false), ("bones", .obj [])])
      (List.mem_cons_self _ _),
   C10_output_key_structure.2.1 [] "c" "extra" .null (by simp),
   C10_output_key_structure.2.2 [] "c" "extra" .null (by simp [channelList])⟩

lemma isTargetAnim_inv (v : JValue) (h : isTargetAnim v = true) :
    ∃ d lb bs, v = .obj [("duration", .num d), ("loop", .bool lb), ("bones", .obj bs)] ∧
      ∀ p ∈ bs, isTargetBone p.2 = true := by
  unfold isTargetAnim at h
  split at h
  · rename_i k1 d k2 lb k3 bs
    simp only [Bool.and_eq_true, decide_eq_true_eq] at h
    obtain ⟨⟨⟨hk1, hk2⟩, hk3⟩, hall⟩ := h
    subst hk1
    subst hk2
    subst hk3
    exact ⟨d, lb, bs, rfl, fun p hp => by
      rw [List.all_eq_true] at hall
      exact hall p hp⟩
  · exact absurd h (by simp)

lemma isTargetDoc_inv (fields : List (String × JValue)) (h : isTargetDoc fields = true) :
    ∃ anims, fields = [("animations", .obj anims)] ∧
      ∀ p ∈ anims, isTargetAnim p.2 = true := by
  unfold isTargetDoc at h
  split at h
  · rename_i k anims
    simp only [Bool.and_eq_true, decide_eq_true_eq] at h
    obtain ⟨hk, hall⟩ := h
    subst hk
    exact ⟨anims, rfl, fun p hp => by
      rw [List.all_eq_true] at hall
      exact hall p hp⟩
  · exact absurd h (by simp)

lemma isTargetBoneFields_jget_none (chs : List String) (l : List (String × JValue))
    (key : String) :
    isTargetBoneFields l chs = true → key ∉ chs → jget l key = none := by
  induction chs generalizing l with
  | nil =>
      intro hshape _
      cases l with
      | nil => rfl
      | cons p l2 => simp [isTargetBoneFields] at hshape
  | cons c cs ih =>
      intro hshape hkey
      have hkeyc : ¬ (key = c) := fun hm => hkey (hm ▸ List.mem_cons_self c cs)
      have hkeycs : key ∉ cs := fun hm => hkey (List.mem_cons_of_mem _ hm)
      cases l with
      | nil => rfl
      | cons p l2 =>
          obtain ⟨k, v⟩ := p
          simp only [isTargetBoneFields] at hshape
          by_cases hkc : k = c
          · rw [if_pos hkc] at hshape
            rw [Bool.and_eq_true] at hshape
            have hkne : ¬ (k = key) := fun hm => hkeyc (hm ▸ hkc)
            rw [jget, if_neg hkne]
            exact ih l2 hshape.2 hkeycs
          · rw [if_neg hkc] at hshape
            exact ih ((k, v) :: l2) hshape hkeycs

lemma convertChannels_pass (chs : List String) (l : List (String × JValue)) (context : String) :
    chs.Nodup → isTargetBoneFields l chs = true → convertChannels chs l context = (l, []) := by
  induction chs generalizing l with
  | nil =>
      intro _ hshape
      cases l with
      | nil => rfl
      | cons p l2 => simp [isTargetBoneFields] at hshape
  | cons c cs ih =>
      intro hnd hshape
      have hnd2 : cs.Nodup := (List.nodup_cons.mp hnd).2
      have hcnotin : c ∉ cs := (List.nodup_cons.mp hnd).1
      cases l with
      | nil =>
          have hsh0 : isTargetBoneFields ([] : List (String × JValue)) cs = true := by
            cases cs <;> rfl
          have h0 := ih ([] : List (String × JValue)) hnd2 hsh0
          simp [convertChannels, jget, h0]
      | cons p l2 =>
          obtain ⟨k, v⟩ := p
          simp only [isTargetBoneFields] at hshape
          by_cases hkc : k = c
          · rw [if_pos hkc] at hshape
            rw [Bool.and_eq_true] at hshape
            obtain ⟨hv, hrest⟩ := hshape
            obtain ⟨xs, rfl⟩ : ∃ xs, v = JValue.list xs := by
              cases v with
              | list xs => exact ⟨xs, rfl⟩
              | null => simp [isListTrack] at hv
              | bool b2 => simp [isListTrack] at hv
              | int n2 => simp [isListTrack] at hv
              | num q2 => simp [isListTrack] at hv
              | str s2 => simp [isListTrack] at hv
              | obj o2 => simp [isListTrack] at hv
            subst hkc
            have hshift := convertChannels_cons_notMem cs l2 context k (JValue.list xs) hcnotin
            have hih := ih l2 hnd2 hrest
            simp [convertChannels, jget, hshift, hih, convert_track]
          · rw [if_neg hkc] at hshape
            have hih := ih ((k, v) :: l2) hnd2 hshape
            have hnone : jget ((k, v) :: l2) c = none :=
              isTargetBoneFields_jget_none cs ((k, v) :: l2) c hshape hcnotin
            simp [convertChannels, hnone, hih]

lemma convertBones_pass (bs : List (String × JValue)) (context : String) :
    (∀ p ∈ bs, isTargetBone p.2 = true) → convertBones bs context = (bs, []) := by
  induction bs with
  | nil => intro _; rfl
  | cons head rest ih =>
      intro h
      obtain ⟨bn, b⟩ := head
      have hhead : isTargetBone b = true := h _ (List.mem_cons_self _ _)
      have hrest : ∀ p ∈ rest, isTargetBone p.2 = true :=
        fun p hp => h p (List.mem_cons_of_mem _ hp)
      cases b with
      | obj bonePairs =>
          simp only [isTargetBone] at hhead
          rw [Bool.and_eq_true] at hhead
          obtain ⟨hne, hshape⟩ := hhead
          have hch := convertChannels_pass channelList bonePairs (context ++ ":" ++ bn)
            (by simp [channelList]) hshape
          have hemp : (convertChannels channelList bonePairs (context ++ ":" ++ bn)).1.isEmpty
              = false := by
            rw [hch]
            simpa using hne
          simp [convertBones, hch, hemp, ih hrest]
          intro hnil
          rw [hnil] at hne
          simp at hne
      | null => simp [isTargetBone] at hhead
      | bool b2 => simp [isTargetBone] at hhead
      | int n2 => simp [isTargetBone] at hhead
      | num q2 => simp [isTargetBone] at hhead
      | str s2 => simp [isTargetBone] at hhead
      | list xs => simp [isTargetBone] at hhead

lemma convertAnim_pass (d : PyNum) (lb : Bool) (bs : List (String × JValue)) (context : String)
    (h : ∀ p ∈ bs, isTargetBone p.2 = true) :
    convertAnim [("duration", .num d), ("loop", .bool lb), ("bones", .obj bs)] context =
      .ok (.obj [("duration", .num d), ("loop", .bool lb), ("bones", .obj bs)], []) := by
  simp [convertAnim, convertAnimBones, jgetD, jget, parse_float, pyFloat, normalize_bool,
    convertBones_pass bs context h]

lemma convertAnims_pass (anims : List (String × JValue)) (source : String) :
    (∀ p ∈ anims, isTargetAnim p.2 = true) → convertAnims anims source = .ok (anims, []) := by
  induction anims with
  | nil => intro _; rfl
  | cons head rest ih =>
      intro h
      obtain ⟨name, anim⟩ := head
      obtain ⟨d, lb, bs, heq, hbones⟩ := isTargetAnim_inv _ (h _ (List.mem_cons_self _ _))
      have hrest : ∀ p ∈ rest, isTargetAnim p.2 = true :=
        fun p hp => h p (List.mem_cons_of_mem _ hp)
      subst heq
      have hanim := convertAnim_pass d lb bs (source ++ ":" ++ name) hbones
      simp [convertAnims, hanim, ih hrest]

/-- C9: converting a document that is already Target-shaped (a single
animations mapping of animations with exactly duration, loop, bones in order,
whose bones are non-empty mappings of list-form channels in channel order)
succeeds and returns the document unchanged, with no diagnostics. -/
theorem C9_idempotence (fields : List (String × JValue)) (source : String)
    (h : isTargetDoc fields = true) :
    convert_animation fields source = .ok (.obj fields, []) := by
  obtain ⟨anims, rfl, hall⟩ := isTargetDoc_inv fields h
  simp [convert_animation, jgetD, jget, convertAnims_pass anims source hall]

/-- Witness for C9: the idempotence theorem applied to a concrete
Target-shaped document. -/
theorem C9_idempotence_witness :
    isTargetDoc targetDoc = true ∧
    convert_animation targetDoc "s" = .ok (.obj targetDoc, []) :=
  ⟨rfl, C9_idempotence targetDoc "s" rfl⟩

end Rigel
